import Mathlib

/-!
Shallow embedding of the myCache repository (Go) for checking its
natural-language specification.  Pure functions of the source become Lean
functions; stateful code becomes explicit state passing; the concurrent
single-flight coordinator becomes a step relation on a state type.
Machine integers are modelled as `Nat`/`Int` with explicit `% 2 ^ 32`
(resp. `% 2 ^ 64`) where the Go code truncates.  Fallible code returns
`Option`/`Except`, and code that can panic or spin forever returns
`Outcome`.
-/

namespace MyCache

/-- Go `[]byte`, modelled as a list of byte values. -/
abbrev Bytes := List Nat

/-- Result of running a piece of Go code that may panic (failed type
assertion, nil-pointer dereference) or never terminate. -/
inductive Outcome (α : Type) where
  | ok (a : α)
  | panicked
  | diverge
  deriving Repr, DecidableEq

def Outcome.map {α β : Type} (f : α → β) : Outcome α → Outcome β
  | .ok a => .ok (f a)
  | .panicked => .panicked
  | .diverge => .diverge

/-- Association-list lookup (model of Go map / `sync.Map` reads). -/
def alookup {α β : Type} [DecidableEq α] : List (α × β) → α → Option β
  | [], _ => none
  | p :: rest, k => if p.1 = k then some p.2 else alookup rest k

/-- Association-list store (model of Go map / `sync.Map` writes):
replace in place when the key is present, append otherwise. -/
def astore {α β : Type} [DecidableEq α] (l : List (α × β)) (k : α) (v : β) :
    List (α × β) :=
  match alookup l k with
  | some _ => l.map (fun p => if p.1 = k then (k, v) else p)
  | none => l ++ [(k, v)]

/-- Association-list delete (model of Go map / `sync.Map` deletes). -/
def aerase {α β : Type} [DecidableEq α] : List (α × β) → α → List (α × β)
  | [], _ => []
  | p :: rest, k => if p.1 = k then aerase rest k else p :: aerase rest k

/-! ## The LRU core (`lru` package)

`ByteView` is the `mycache.ByteView` value type; the LRU stores payloads
behind `ComputableValue`, which in the shard is always a `ByteView`, so the
model fixes the stored value type to `ByteView`.

Go's `container/list` elements are mutable heap cells whose `Value` field
has type `any`.  `Cache.Add` on an existing key executes
`c.ll.PushFront(value0)` where `value0` is itself a `*list.Element`, so the
list can hold two payload shapes: a `*entry` or a `*list.Element`.  The
model gives every element an identity (`id`) so that the in-place update
`temp.insideValue = val` and the pushed element reference are represented
faithfully. -/

structure ByteView where
  data : Bytes
  deriving Repr, DecidableEq

/-- `ByteView.Len` returns `int64(len(v.data))`. -/
def ByteView.Len (v : ByteView) : Int := (v.data.length : Int)

/-- The `Value any` field of a `list.Element`: either a `*entry`
(key and current value) or a reference to another list element
(what `Cache.Add` pushes for an existing key). -/
inductive Payload where
  | ent (key : String) (value : ByteView)
  | elemRef (id : Nat)
  deriving Repr, DecidableEq

/-- One `list.Element` of the doubly linked list, with its heap identity. -/
structure Elem where
  id : Nat
  val : Payload
  deriving Repr, DecidableEq

/-- The `lru.Cache` structure: `maxBytes`, `nbytes`, the list `ll`
(front first), the key index `cache` mapping key to element id, and a
fresh-id counter for newly allocated elements. -/
structure LruCache where
  maxBytes : Int
  nbytes : Int
  ll : List Elem
  cache : List (String × Nat)
  nextId : Nat
  deriving Repr, DecidableEq

/-- `lru.New`: `OnEvicted` is not modelled (all claims use a nil callback,
as does `mycache.NewGroup`). -/
def lruNew (maxBytes : Int) : LruCache :=
  { maxBytes := maxBytes, nbytes := 0, ll := [], cache := [], nextId := 0 }

/-- Payload currently stored in the element with the given id. -/
def payloadOf (ll : List Elem) (eid : Nat) : Option Payload :=
  match ll.find? (fun e => e.id = eid) with
  | some e => some e.val
  | none => none

/-- In-place mutation of the entry behind an element
(`temp.insideValue = val`). -/
def setPayload (ll : List Elem) (eid : Nat) (p : Payload) : List Elem :=
  ll.map (fun e => if e.id = eid then { e with val := p } else e)

/-- `Cache.RemoveOldest`: take the back element if any, remove it, and run
`ele.Value.(*entry)`; the type assertion panics when the element's value is
a `*list.Element` (pushed by `Cache.Add` on an existing key). -/
def lruRemoveOldest (c : LruCache) : Outcome LruCache :=
  match c.ll.getLast? with
  | none => .ok c
  | some e =>
      let ll' := c.ll.dropLast
      match e.val with
      | .elemRef _ => .panicked
      | .ent k v =>
          .ok { c with
                ll := ll',
                cache := aerase c.cache k,
                nbytes := c.nbytes - ((k.length : Int) + v.Len) }

/-- The `for c.maxBytes > 0 && c.nbytes > c.maxBytes { c.RemoveOldest() }`
loop at the end of `Cache.Add`.  Each pass over a nonempty list removes one
element; when the list is empty and the condition still holds the Go loop
spins forever, reported as `diverge`.  The fuel starts at the list length,
which bounds the number of productive passes. -/
def evictN : Nat → LruCache → Outcome LruCache
  | 0, c =>
      if c.maxBytes > 0 ∧ c.nbytes > c.maxBytes then .diverge else .ok c
  | n + 1, c =>
      if c.maxBytes > 0 ∧ c.nbytes > c.maxBytes then
        match lruRemoveOldest c with
        | .ok c' => evictN n c'
        | .panicked => .panicked
        | .diverge => .diverge
      else .ok c

/-- `Cache.Add`.  For an existing key the source runs
`c.ll.PushFront(value0)` (pushing the `*list.Element` itself as a new front
element), adds `temp.insideValue.Len() - val.Len()` (old minus new) to
`nbytes`, and then mutates the entry in place; for a new key it pushes a
fresh `*entry` element and indexes it.  Afterwards the eviction loop runs. -/
def lruAdd (c : LruCache) (key : String) (val : ByteView) :
    Outcome (Bool × LruCache) :=
  if c.maxBytes > 0 ∧ (key.length : Int) + val.Len > c.maxBytes then
    .ok (false, c)
  else
    let afterInsert : Outcome LruCache :=
      match alookup c.cache key with
      | some eid =>
          let c' := { c with
                      ll := ⟨c.nextId, .elemRef eid⟩ :: c.ll,
                      nextId := c.nextId + 1 }
          match payloadOf c'.ll eid with
          | some (.ent k0 v0) =>
              .ok { c' with
                    nbytes := c'.nbytes + (v0.Len - val.Len),
                    ll := setPayload c'.ll eid (.ent k0 val) }
          | _ => .panicked
      | none =>
          .ok { c with
                ll := ⟨c.nextId, .ent key val⟩ :: c.ll,
                cache := (key, c.nextId) :: c.cache,
                nbytes := c.nbytes + ((key.length : Int) + val.Len),
                nextId := c.nextId + 1 }
    match afterInsert with
    | .ok c1 => (evictN c1.ll.length c1).map (fun c2 => (true, c2))
    | .panicked => .panicked
    | .diverge => .diverge

/-- `Cache.Remove`: no-op on the empty key or a missing key; otherwise run
the `ele.Value.(*entry)` assertion, drop the element from both structures
and decrement `nbytes`. -/
def lruRemove (c : LruCache) (key : String) : Outcome LruCache :=
  if key.length = 0 then .ok c
  else
    match alookup c.cache key with
    | none => .ok c
    | some eid =>
        match payloadOf c.ll eid with
        | some (.ent k v) =>
            .ok { c with
                  cache := aerase c.cache k,
                  ll := c.ll.filter (fun e => e.id ≠ eid),
                  nbytes := c.nbytes - ((k.length : Int) + v.Len) }
        | _ => .panicked

/-- `Cache.Get`: on a hit, move the element to the front and return the
entry's value (after the `*entry` type assertion). -/
def lruGet (c : LruCache) (key : String) :
    Outcome (Option ByteView × LruCache) :=
  match alookup c.cache key with
  | none => .ok (none, c)
  | some eid =>
      let ll' :=
        match c.ll.find? (fun e => e.id = eid) with
        | some e => e :: c.ll.filter (fun x => x.id ≠ eid)
        | none => c.ll
      match payloadOf ll' eid with
      | some (.ent _ v) => .ok (some v, { c with ll := ll' })
      | _ => .panicked

/-- One externally invocable LRU operation. -/
inductive LruOp where
  | add (key : String) (value : Bytes)
  | remove (key : String)
  | removeOldest
  deriving Repr, DecidableEq

def lruStep (c : LruCache) : LruOp → Outcome LruCache
  | .add k v => (lruAdd c k ⟨v⟩).map (fun r => r.2)
  | .remove k => lruRemove c k
  | .removeOldest => lruRemoveOldest c

/-- Run a sequence of LRU operations from a fresh cache with the given
`maxBytes`. -/
def runLru (maxBytes : Int) (ops : List LruOp) : Outcome LruCache :=
  ops.foldl
    (fun acc op =>
      match acc with
      | .ok c => lruStep c op
      | .panicked => .panicked
      | .diverge => .diverge)
    (.ok (lruNew maxBytes))

/-- Sum of `len(key) + value.Len()` over the entries currently indexed by
the cache map (the spec's `used_bytes` invariant side). -/
def lruSumBytes (c : LruCache) : Int :=
  c.cache.foldr
    (fun p acc =>
      acc + ((p.1.length : Int) +
        match payloadOf c.ll p.2 with
        | some (.ent _ v) => v.Len
        | _ => 0))
    0

/-! ## The append-only persistence layer (`persistence` package)

Log records (`Entry`), their fixed 20-byte big-endian header encoding, the
data file, and the write sequence with its in-memory index, replay and
merge.  Go's `uint32`/`uint64` truncations are modelled with explicit
`% 2 ^ 32` / `% 2 ^ 64`; byte extraction (`byte(v >> k)`) is `/ 2 ^ k % 256`,
written with decimal literals below. -/

def HeaderSize : Nat := 20

/-- `persistence.PUT` (mark 0). -/
def PUT : Nat := 0

/-- `persistence.DEL` (mark 1). -/
def DEL : Nat := 1

/-- `binary.BigEndian.PutUint32`. -/
def putUint32 (n : Nat) : Bytes :=
  [n / 16777216 % 256, n / 65536 % 256, n / 256 % 256, n % 256]

/-- `binary.BigEndian.PutUint64`. -/
def putUint64 (n : Nat) : Bytes :=
  [n / 72057594037927936 % 256, n / 281474976710656 % 256,
   n / 1099511627776 % 256, n / 4294967296 % 256,
   n / 16777216 % 256, n / 65536 % 256, n / 256 % 256, n % 256]

/-- `binary.BigEndian.Uint32` on the first four bytes. -/
def getUint32 : Bytes → Nat
  | b0 :: b1 :: b2 :: b3 :: _ => ((b0 * 256 + b1) * 256 + b2) * 256 + b3
  | _ => 0

/-- `binary.BigEndian.Uint64` on the first eight bytes. -/
def getUint64 : Bytes → Nat
  | b0 :: b1 :: b2 :: b3 :: b4 :: b5 :: b6 :: b7 :: _ =>
      ((((((b0 * 256 + b1) * 256 + b2) * 256 + b3) * 256 + b4) * 256 + b5)
          * 256 + b6) * 256 + b7
  | _ => 0

/-- A log record (`persistence.Entry`).  `KeySize`, `ValueSize`, `Mark` are
`uint32` values and `Timestamp` a `uint64` value. -/
structure Entry where
  Key : Bytes
  Value : Bytes
  KeySize : Nat
  ValueSize : Nat
  Mark : Nat
  Timestamp : Nat
  deriving Repr, DecidableEq

/-- `persistence.NewEntry`: the sizes are `uint32(len(...))`, and the
`uint32`/`uint64` typing of mark and timestamp is made explicit. -/
def NewEntry (key value : Bytes) (mark ts : Nat) : Entry :=
  { Key := key, Value := value,
    KeySize := key.length % 2 ^ 32, ValueSize := value.length % 2 ^ 32,
    Mark := mark % 2 ^ 32, Timestamp := ts % 2 ^ 64 }

/-- `Entry.Size`: `uint64(entry.KeySize + entry.ValueSize + HeaderSize)`,
where the sum is computed in `uint32` arithmetic. -/
def Entry.Size (e : Entry) : Nat :=
  (e.KeySize + e.ValueSize + HeaderSize) % 2 ^ 32

/-- Go's `copy(dst[lo:hi], src)` for `lo ≤ hi ≤ len dst`: copies
`min (hi - lo) (len src)` bytes of `src` into `dst` starting at `lo`. -/
def copySlice (dst : Bytes) (lo hi : Nat) (src : Bytes) : Bytes :=
  let n := min (hi - lo) src.length
  dst.take lo ++ src.take n ++ dst.drop (lo + n)

/-- `Entry.Encode`: a zeroed buffer of `Size` bytes, the four header writes
(`PutUint32`/`PutUint64` are `copy`s of the raw bytes), then the key at
`[HeaderSize, HeaderSize+KeySize)` and the value at
`[HeaderSize+KeySize, Size)`. -/
def Entry.Encode (e : Entry) : Bytes :=
  let size := e.Size
  let b := List.replicate size 0
  let b := copySlice b 0 4 (putUint32 e.KeySize)
  let b := copySlice b 4 8 (putUint32 e.ValueSize)
  let b := copySlice b 8 12 (putUint32 e.Mark)
  let b := copySlice b 12 HeaderSize (putUint64 e.Timestamp)
  let b := copySlice b HeaderSize (HeaderSize + e.KeySize) e.Key
  let b := copySlice b (HeaderSize + e.KeySize) size e.Value
  b

/-- `persistence.Decode`: rejects inputs shorter than `HeaderSize`,
otherwise reads the four header fields.  The Go function returns
`&Entry{KeySize: ..., ValueSize: ..., Mark: ..., Timestamp: ...}`, so the
`Key` and `Value` fields are left at their zero value (nil). -/
def Decode (data : Bytes) : Option Entry :=
  if data.length < HeaderSize then none
  else
    some { Key := [], Value := [],
           KeySize := getUint32 data,
           ValueSize := getUint32 (data.drop 4),
           Mark := getUint32 (data.drop 8),
           Timestamp := getUint64 (data.drop 12) }

/-- An open data file (`persistence.DatabaseFile`): its byte contents and
the atomically maintained `offset`. -/
structure DatabaseFile where
  content : Bytes
  offset : Nat
  deriving Repr, DecidableEq

/-- `os.File.WriteAt`: overwrite `data.length` bytes starting at `off`,
zero-extending the file first if `off` is past the end. -/
def writeAt (content : Bytes) (off : Nat) (data : Bytes) : Bytes :=
  let padded := content ++ List.replicate (off - content.length) 0
  padded.take off ++ data ++ padded.drop (off + data.length)

/-- `DatabaseFile.Write`: read the current offset, write the encoded record
there, advance the offset by `entry.Size()`, and return the offset that was
read (the record's starting offset, before the bump). -/
def DatabaseFile.Write (f : DatabaseFile) (e : Entry) : DatabaseFile × Nat :=
  let data := e.Encode
  let off := f.offset
  ({ content := writeAt f.content off data, offset := off + e.Size }, off)

/-! ### The write sequence

`WriteSequence` owns one data file and a `sync.Map` index from key (the
Go code converts `[]byte` keys to `string`; the conversion is
byte-transparent, so keys stay `Bytes` here) to the absolute offset of the
latest PUT record.  At this level the file is modelled as the list of its
records in append order, with byte offsets computed from `Entry.Size`;
`Entry.Encode`/`Decode` above justify the byte-for-record exchange. -/

/-- Total encoded size of a record list (the file's logical length). -/
def logSize (l : List Entry) : Nat := (l.map Entry.Size).sum

/-- `DatabaseFile.Read` at an absolute offset on a record-modelled file:
returns the record starting exactly at `off` (offsets inside or past the
log yield a failure, as the real read would). -/
def logRead : List Entry → Nat → Option Entry
  | [], _ => none
  | e :: rest, off =>
      if off = 0 then some e
      else if off < e.Size then none
      else logRead rest (off - e.Size)

/-- Append to the record-modelled file, returning the new file and the
record's starting offset (what `DatabaseFile.Write` returns). -/
def logAppend (l : List Entry) (e : Entry) : List Entry × Nat :=
  (l ++ [e], logSize l)

/-- `persistence.WriteSequence`: the active data file (as its record list)
and the in-memory key-to-offset index. -/
structure WriteSeq where
  file : List Entry
  index : List (Bytes × Nat)
  deriving Repr, DecidableEq

/-- The fresh write sequence produced by `NewWriteSequence` on an empty
directory: empty file, empty index. -/
def wsNew : WriteSeq := { file := [], index := [] }

/-- `WriteSequence.Put`: build a PUT record with the current timestamp,
append it, and store the returned offset under the key. -/
def wsPut (w : WriteSeq) (key value : Bytes) (ts : Nat) : WriteSeq :=
  let e := NewEntry key value PUT ts
  let fo := logAppend w.file e
  { file := fo.1, index := astore w.index key fo.2 }

/-- `WriteSequence.Delete`: error on the empty key; no-op when the key is
not indexed; otherwise append a DEL record (empty value) and drop the index
entry, discarding the DEL record's offset. -/
def wsDelete (w : WriteSeq) (key : Bytes) (ts : Nat) : WriteSeq :=
  if key.length = 0 then w
  else
    match alookup w.index key with
    | none => w
    | some _ =>
        { file := (logAppend w.file (NewEntry key [] DEL ts)).1,
          index := aerase w.index key }

/-- `WriteSequence.Get`: read the value bytes at the indexed offset. -/
def wsGet (w : WriteSeq) (key : Bytes) : Except String Bytes :=
  if key.length = 0 then .error "key is nil"
  else
    match alookup w.index key with
    | none => .error "key not exist"
    | some off =>
        match logRead w.file off with
        | none => .error "read error"
        | some e => .ok e.Value

/-- The loop body of `WriteSequence.loadIndex`: starting at offset 0, read
each record, advance by its size, delete the key on a DEL mark and store
the record's offset on a PUT mark, until the file offset is reached. -/
def loadIndexGo : List Entry → Nat → List (Bytes × Nat) → List (Bytes × Nat)
  | [], _, idx => idx
  | e :: rest, off, idx =>
      loadIndexGo rest (off + e.Size)
        (if e.Mark = DEL then aerase idx e.Key else astore idx e.Key off)

/-- `WriteSequence.loadIndex`: replay the file from offset 0. -/
def loadIndex (file : List Entry) : List (Bytes × Nat) :=
  loadIndexGo file 0 []

/-- One externally invocable write-sequence operation (the timestamp each
operation would take from the clock is supplied as data). -/
inductive WOp where
  | put (key value : Bytes) (ts : Nat)
  | del (key : Bytes) (ts : Nat)
  deriving Repr, DecidableEq

def wsStep (w : WriteSeq) : WOp → WriteSeq
  | .put k v ts => wsPut w k v ts
  | .del k ts => wsDelete w k ts

def runWsFrom (w : WriteSeq) : List WOp → WriteSeq
  | [] => w
  | op :: rest => runWsFrom (wsStep w op) rest

/-- Run a sequence of Put/Delete operations on a fresh write sequence. -/
def runWs (ops : List WOp) : WriteSeq := runWsFrom wsNew ops

/-! ### Merge

`WriteSequence.Merge` ranges over the live index, reading each indexed
record and appending it to a fresh merge file.  Inside the `Range`
closure, `entry, err := w.databaseFile.Read(value)` declares a *new* `err`
that shadows the enclosing one, as does `new_offset, err := ...`; a failing
read or append therefore stops the iteration (the callback returns false)
but leaves the outer `err` nil, so the code falls through to the rename
sequence and installs the partially written merge file and index, returning
nil.  The outer `err` is only ever set by the `k.(string)` / `v.(int64)`
type assertions, which cannot fail for values stored by this code.
I/O failures are injected through the `readFail`/`writeFail` oracles
(argument: the absolute offset being read / appended at). -/

structure MergeLoop where
  mergeFile : List Entry
  newIndex : List (Bytes × Nat)
  broken : Bool
  deriving Repr, DecidableEq

def mergeGo (file : List Entry) (readFail writeFail : Nat → Bool) :
    List (Bytes × Nat) → MergeLoop → MergeLoop
  | [], st => st
  | (k, off) :: rest, st =>
      match if readFail off then none else logRead file off with
      | none => { st with broken := true }
      | some e =>
          if writeFail (logSize st.mergeFile) then { st with broken := true }
          else
            let fo := logAppend st.mergeFile e
            mergeGo file readFail writeFail rest
              { mergeFile := fo.1, newIndex := astore st.newIndex k fo.2,
                broken := st.broken }

/-- `WriteSequence.Merge`.  No-op on an empty file.  Otherwise run the
range loop; because the per-record errors land in a shadowed variable, the
`if err != nil` check after the loop sees nil and the function always
proceeds to swap in the merge file and the new index and to return nil
(the reopen of the new active file is modelled as succeeding). -/
def wsMerge (w : WriteSeq) (readFail writeFail : Nat → Bool) :
    WriteSeq × Option String :=
  if logSize w.file = 0 then (w, none)
  else
    let st := mergeGo w.file readFail writeFail w.index
      { mergeFile := [], newIndex := [], broken := false }
    ({ file := st.mergeFile, index := st.newIndex }, none)

/-! ## Shard (`cache` in the `mycache` package), Group, and HTTP surface

The shard wraps the LRU and an optional write sequence.  I/O failures of
the persistence layer are injected through boolean oracles (`putFail`,
`delFail`); the user-supplied source loader's answer is passed in as an
`Except`.  `strBytes` is the `[]byte(key)` / `string(key)` conversion. -/

def strBytes (s : String) : Bytes := s.data.map Char.toNat

/-- The shard (`type cache struct` of the `mycache` package); only the
fields the modelled operations touch are kept. -/
structure CacheShard where
  data : LruCache
  enablePersistence : Bool
  writeSequence : Option WriteSeq
  deriving Repr, DecidableEq

/-- `cache.add`: nothing on the empty key; when persistence is enabled
*and* the write sequence is non-nil, `Put` runs first and its error aborts
the mutation (the LRU is untouched); otherwise `lru.Cache.Add` runs, its
boolean result discarded. -/
def cacheAdd (c : CacheShard) (key : String) (val : ByteView) (ts : Nat)
    (putFail : Bool) : Outcome (CacheShard × Option String) :=
  if key.length = 0 then .ok (c, none)
  else
    match c.writeSequence, c.enablePersistence with
    | some w, true =>
        if putFail then .ok (c, some "put error")
        else
          match lruAdd c.data key val with
          | .ok (_, d') =>
              .ok ({ c with
                     data := d',
                     writeSequence :=
                       some (wsPut w (strBytes key) val.data ts) }, none)
          | .panicked => .panicked
          | .diverge => .diverge
    | _, _ =>
        match lruAdd c.data key val with
        | .ok (_, d') => .ok ({ c with data := d' }, none)
        | .panicked => .panicked
        | .diverge => .diverge

/-- `cache.get`: reader path; delegate to the LRU and cast back to
`ByteView`. -/
def cacheGet (c : CacheShard) (key : String) :
    Outcome (Option ByteView × CacheShard) :=
  match lruGet c.data key with
  | .ok (r, d') => .ok (r, { c with data := d' })
  | .panicked => .panicked
  | .diverge => .diverge

/-- `cache.delete`: when persistence is enabled the code calls
`c.writeSequence.Delete([]byte(key))` without a nil check.  On a nil
write sequence, `Delete` returns an error for the empty key before
touching the receiver, and dereferences the nil pointer (`w.mutex.Lock()`)
for any other key — a panic.  A returned error aborts the mutation;
otherwise `lru.Cache.Remove` runs. -/
def cacheDelete (c : CacheShard) (key : String) (ts : Nat) (delFail : Bool) :
    Outcome (CacheShard × Option String) :=
  if c.enablePersistence then
    match c.writeSequence with
    | none =>
        if key.length = 0 then .ok (c, some "key is nil") else .panicked
    | some w =>
        if key.length = 0 then .ok (c, some "key is nil")
        else if delFail then .ok (c, some "delete error")
        else
          match lruRemove c.data key with
          | .ok d' =>
              .ok ({ c with
                     data := d',
                     writeSequence :=
                       some (wsDelete w (strBytes key) ts) }, none)
          | .panicked => .panicked
          | .diverge => .diverge
  else
    match lruRemove c.data key with
    | .ok d' => .ok ({ c with data := d' }, none)
    | .panicked => .panicked
    | .diverge => .diverge

/-- `mycache.Group`, reduced to the fields the modelled pipeline reads; the
peer picker is nil (single-node configuration), so `load` always falls
through to `getLocally`. -/
structure Group where
  name : String
  mainCache : CacheShard
  deriving Repr, DecidableEq

/-- `mycache.Conf`. -/
structure Conf where
  Name : String
  EnablePersistence : Bool
  PersistencePath : String
  LoadPersistentFile : Bool
  FullPersistentFile : String
  IncrPersistentFile : String
  deriving Repr, DecidableEq

/-- `cache.init`: populate the LRU from every key of the write-sequence
index (keys whose read fails are skipped).  Called through a nil
`writeSequence` (`GetAllIndexKeys` dereferences it), it panics. -/
def cacheInit (c : CacheShard) : Outcome CacheShard :=
  match c.writeSequence with
  | none => .panicked
  | some w =>
      let step := fun (acc : Outcome LruCache) (p : Bytes × Nat) =>
        match acc with
        | .ok d =>
            match wsGet w p.1 with
            | .ok val =>
                match lruAdd d ((p.1.map Char.ofNat).asString) ⟨val⟩ with
                | .ok (_, d') => .ok d'
                | .panicked => .panicked
                | .diverge => .diverge
            | .error _ => .ok d
        | other => other
      match w.index.foldl step (.ok c.data) with
      | .ok d' => .ok { c with data := d' }
      | .panicked => .panicked
      | .diverge => .diverge

/-- `mycache.NewGroup` (getter non-nil, name nonempty): the write sequence
is created only when `PersistencePath` is nonempty and persistence (or a
full persistent file) is requested, yet the shard's persistence flag is
copied from the configuration unconditionally.  When `FullPersistentFile`
is nonempty, `mainCache.init()` runs. -/
def newGroup (conf : Conf) (cacheBytes : Int) : Outcome Group :=
  let w : Option WriteSeq :=
    if conf.PersistencePath.length > 0 ∧
        (conf.EnablePersistence = true ∨ conf.FullPersistentFile.length > 0)
    then some wsNew
    else none
  let g : Group :=
    { name := conf.Name,
      mainCache :=
        { data := lruNew cacheBytes,
          enablePersistence := conf.EnablePersistence,
          writeSequence := w } }
  if conf.FullPersistentFile.length > 0 then
    match cacheInit g.mainCache with
    | .ok c' => .ok { g with mainCache := c' }
    | .panicked => .panicked
    | .diverge => .diverge
  else .ok g

/-- `Group.getLocally`: ask the source loader; on its error return it.  On
success wrap the bytes in a `ByteView` and call `populateCache`, which
invokes `mainCache.add` and *discards* its returned error; the value is
then returned with a nil error. -/
def getLocally (g : Group) (key : String) (getterResult : Except String Bytes)
    (ts : Nat) (putFail : Bool) : Outcome (Group × Except String ByteView) :=
  match getterResult with
  | .error e => .ok (g, .error e)
  | .ok bs =>
      let value : ByteView := ⟨bs⟩
      match cacheAdd g.mainCache key value ts putFail with
      | .ok (c', _discardedErr) => .ok ({ g with mainCache := c' }, .ok value)
      | .panicked => .panicked
      | .diverge => .diverge

/-- `Group.load` for a nil peer picker: the single-flight `Do` runs the
closure (no other in-flight call in this sequential setting), which falls
through to `getLocally`. -/
def groupLoad (g : Group) (key : String) (getterResult : Except String Bytes)
    (ts : Nat) (putFail : Bool) : Outcome (Group × Except String ByteView) :=
  getLocally g key getterResult ts putFail

/-- `Group.Get`: reject the empty key, probe the shard, and on a miss enter
`load`. -/
def groupGet (g : Group) (key : String) (getterResult : Except String Bytes)
    (ts : Nat) (putFail : Bool) : Outcome (Group × Except String ByteView) :=
  if key.length = 0 then .ok (g, .error "key is required")
  else
    match cacheGet g.mainCache key with
    | .ok (some v, c') => .ok ({ g with mainCache := c' }, .ok v)
    | .ok (none, c') =>
        groupLoad { g with mainCache := c' } key getterResult ts putFail
    | .panicked => .panicked
    | .diverge => .diverge

/-- `Group.Delete`: reject the empty key, then call `mainCache.delete`,
whose returned error is discarded (`Delete` returns nil after it). -/
def groupDelete (g : Group) (key : String) (ts : Nat) (delFail : Bool) :
    Outcome (Group × Option String) :=
  if key.length = 0 then .ok (g, some "key is required")
  else
    match cacheDelete g.mainCache key ts delFail with
    | .ok (c', _discardedErr) => .ok ({ g with mainCache := c' }, none)
    | .panicked => .panicked
    | .diverge => .diverge

/-! ### HTTP surface (`HTTPPool.ServeKey`, GET path) -/

/-- Protocol-buffer varint. -/
def varint (n : Nat) : Bytes :=
  if h : n < 128 then [n]
  else (n % 128 + 128) :: varint (n / 128)
decreasing_by exact Nat.div_lt_self (by omega) (by omega)

/-- `proto.Marshal(&pb.KVResponse{Value: ...})`: proto3 encoding of the
single `bytes` field (field number 1, wire type 2); an empty value
marshals to no bytes.  Marshalling never fails. -/
def marshalKV (value : Bytes) : Bytes :=
  if value.length = 0 then []
  else 10 :: varint value.length ++ value

structure HttpResp where
  status : Nat
  body : Bytes
  deriving Repr, DecidableEq

/-- `HTTPPool.ServeKey` for a GET request on `<base>/<group>/<key>`:
404 when the group is not registered.  Otherwise
`view, err := group.Get(key)` is immediately followed by
`body, err := proto.Marshal(...)`, which *overwrites* the error from
`Get`; the only error the handler checks is the marshal error, which never
occurs, so the handler always answers 200 with the marshalled view — a
`ByteView{}` (empty value) when `Get` failed. -/
def serveKeyGet (registered : Option Group) (key : String)
    (getterResult : Except String Bytes) (ts : Nat) (putFail : Bool) :
    Outcome HttpResp :=
  match registered with
  | none => .ok { status := 404, body := [] }
  | some g =>
      match groupGet g key getterResult ts putFail with
      | .ok (_, res) =>
          let view : ByteView := match res with | .ok v => v | .error _ => ⟨[]⟩
          .ok { status := 200, body := marshalKV view.data }
      | .panicked => .panicked
      | .diverge => .diverge

/-! ## The single-flight coordinator (`singleflight.GroupCall.Do`)

An operational model of all `Do(key, fn)` calls for one fixed key,
faithful to the locking in the source.  Each mutex-protected section of
`Do` is one atomic step, and the `WaitGroup` is folded into the call
record's state (`val`/`err` are written before `Done()`, and waiters read
them only after `Wait()` returns, so the write/`Done` pair is one step):

* `enterNew`: the first critical section when `m[key]` is absent —
  allocate a fresh call record, arm its counter, store it in the map.
* `enterJoin`: the first critical section when `m[key]` holds a call `c` —
  unlock and wait on `c`.
* `runFn`: `c.val, c.err = fn(); c.wg.Done()` — the one `fn` invocation,
  recorded in the ghost counter `fnCnt`, with a result chosen
  nondeterministically.
* `removeEntry`: the last critical section — `delete(g.m, key)`, then the
  originator returns the record's stored result.
* `finishWait`: a waiter wakes up after `Done` and returns the record's
  stored result.

The result type `α` stands for the `(value, error)` pair. -/

/-- A call record (`singleflight.call`): still awaiting `fn`, or holding
its result with the `WaitGroup` counter back at zero. -/
inductive CallState (α : Type) where
  | running
  | done (r : α)
  deriving Repr, DecidableEq

/-- Program counter of one goroutine executing `Do` on the key. -/
inductive ThreadPC (α : Type) where
  | start
  | exec (cid : Nat)
  | removing (cid : Nat)
  | waiting (cid : Nat)
  | ret (cid : Nat) (r : α)
  deriving Repr, DecidableEq

/-- Global state of the single-flight group, restricted to one key:
the map cell `m[key]`, the heap of call records, a ghost count of `fn`
invocations per record, a fresh-allocation counter, and the goroutines. -/
structure SFState (α : Type) where
  cell : Option Nat
  calls : Nat → CallState α
  fnCnt : Nat → Nat
  nextId : Nat
  threads : Nat → ThreadPC α

/-- All goroutines are about to call `Do`; no call record exists. -/
def sfInit (α : Type) : SFState α :=
  { cell := none, calls := fun _ => .running, fnCnt := fun _ => 0,
    nextId := 0, threads := fun _ => .start }

/-- One atomic step of some goroutine. -/
inductive SFStep {α : Type} : SFState α → SFState α → Prop where
  | enterNew (s : SFState α) (i : Nat)
      (h1 : s.threads i = .start) (h2 : s.cell = none) :
      SFStep s
        { s with
          cell := some s.nextId,
          nextId := s.nextId + 1,
          threads := Function.update s.threads i (.exec s.nextId) }
  | enterJoin (s : SFState α) (i cid : Nat)
      (h1 : s.threads i = .start) (h2 : s.cell = some cid) :
      SFStep s
        { s with threads := Function.update s.threads i (.waiting cid) }
  | runFn (s : SFState α) (i cid : Nat) (r : α)
      (h1 : s.threads i = .exec cid) :
      SFStep s
        { s with
          calls := Function.update s.calls cid (.done r),
          fnCnt := Function.update s.fnCnt cid (s.fnCnt cid + 1),
          threads := Function.update s.threads i (.removing cid) }
  | removeEntry (s : SFState α) (i cid : Nat) (r : α)
      (h1 : s.threads i = .removing cid) (h2 : s.calls cid = .done r) :
      SFStep s
        { s with
          cell := none,
          threads := Function.update s.threads i (.ret cid r) }
  | finishWait (s : SFState α) (i cid : Nat) (r : α)
      (h1 : s.threads i = .waiting cid) (h2 : s.calls cid = .done r) :
      SFStep s
        { s with threads := Function.update s.threads i (.ret cid r) }

/-- States reachable from the initial state by interleaved `Do` calls. -/
def SFReachable {α : Type} (s : SFState α) : Prop :=
  Relation.ReflTransGen SFStep (sfInit α) s

/-- Whether a program counter refers to the given call record. -/
def sfUses {α : Type} (pc : ThreadPC α) (cid : Nat) : Prop :=
  match pc with
  | .start => False
  | .exec c => c = cid
  | .removing c => c = cid
  | .waiting c => c = cid
  | .ret c _ => c = cid

/-- The inductive invariant of the single-flight model: call ids at or
beyond `nextId` are untouched; `fn` ran at most once per call record; the
originator of a still-running call record is unique and has not yet run
`fn`; and a returned thread carries exactly the result stored in its call
record. -/
structure SFInv {α : Type} (s : SFState α) : Prop where
  fresh : ∀ cid, s.nextId ≤ cid →
    s.fnCnt cid = 0 ∧ s.calls cid = .running ∧ s.cell ≠ some cid ∧
      ∀ i, ¬ sfUses (s.threads i) cid
  cnt_le : ∀ cid, s.fnCnt cid ≤ 1
  exec_run : ∀ i cid, s.threads i = .exec cid →
    s.fnCnt cid = 0 ∧ s.calls cid = .running
  exec_uniq : ∀ i j cid, s.threads i = .exec cid →
    s.threads j = .exec cid → i = j
  ret_done : ∀ i cid r, s.threads i = .ret cid r → s.calls cid = .done r

/-! ## Concrete instances used by the claim checks -/

/-- A group with persistence enabled and a live (empty) write sequence, as
built by `NewGroup` with a nonempty `PersistencePath`. -/
def gPersist : Group :=
  { name := "scores",
    mainCache :=
      { data := lruNew 1024, enablePersistence := true,
        writeSequence := some wsNew } }

/-- A registered group without persistence (fresh LRU). -/
def gPlain : Group :=
  { name := "scores",
    mainCache :=
      { data := lruNew 1024, enablePersistence := false,
        writeSequence := none } }

/-- A write sequence holding two PUT records: `x ↦ "1"` at offset 0 and
`y ↦ "2"` at offset 22. -/
def wsTwo : WriteSeq := runWs [.put [120] [49] 1, .put [121] [50] 2]

/-- Single-flight demo trace: goroutine 0 enters `Do` first and becomes
the originator of call 0. -/
def sfS1 : SFState Nat :=
  { cell := some 0, calls := fun _ => .running, fnCnt := fun _ => 0,
    nextId := 1, threads := Function.update (fun _ => .start) 0 (.exec 0) }

/-- Goroutine 1 arrives while call 0 is in flight and joins it. -/
def sfS2 : SFState Nat :=
  { sfS1 with threads := Function.update sfS1.threads 1 (.waiting 0) }

/-- The originator's `fn` returns 42; the result is stored and the
counter released. -/
def sfS3 : SFState Nat :=
  { sfS2 with
    calls := Function.update sfS2.calls 0 (.done 42),
    fnCnt := Function.update sfS2.fnCnt 0 (sfS2.fnCnt 0 + 1),
    threads := Function.update sfS2.threads 0 (.removing 0) }

/-- The waiter wakes up and returns the shared result. -/
def sfS4 : SFState Nat :=
  { sfS3 with threads := Function.update sfS3.threads 1 (.ret 0 42) }

/-- The originator deletes the map entry and returns the result. -/
def sfS5 : SFState Nat :=
  { sfS4 with
    cell := none,
    threads := Function.update sfS4.threads 0 (.ret 0 42) }

/-! ## Claim theorems -/

/-- C1: the spec's byte-accounting invariant
`used_bytes = Σ (len(key) + value.len())` is broken by `Cache.Add` on an
existing key: the code executes `c.nbytes += temp.insideValue.Len() -
val.Len()` (old minus new) where the invariant needs new minus old.  After
`Add("a","1"); Add("a","22")` on an unbounded cache, `nbytes` is 1 while
the stored entries sum to 3. -/
theorem claim_C1_theorem :
    (runLru 0 [.add "a" [49], .add "a" [50, 50]]).map
        (fun c => (c.nbytes, lruSumBytes c)) = .ok (1, 3) ∧
    (1 : Int) ≠ 3 :=
  ⟨rfl, by decide⟩

/-- C9: after `Add` on an already-present key pushed the old
`*list.Element` itself onto the list front, evicting down to that element
makes `RemoveOldest`'s `ele.Value.(*entry)` type assertion fail: the
operation sequence panics. -/
theorem claim_C9_theorem :
    runLru 0 [.add "k" [49], .add "k" [50], .removeOldest, .removeOldest] =
      .panicked :=
  rfl

/-- C2: contrary to the claim, a failing record read during `Merge` is
assigned to a variable that shadows the enclosing `err`, so `Merge`
returns nil and *does* install the partially written merge file and index.
Here the read of the record at offset 22 (`y`) fails: the merged state
keeps only `x`, key `y` is dropped from the index, and no error is
reported. -/
theorem claim_C2_theorem :
    wsMerge wsTwo (fun off => off == 22) (fun _ => false) =
      ({ file := [NewEntry [120] [49] PUT 1], index := [([120], 0)] },
        none) ∧
    wsTwo.index = [([120], 0), ([121], 22)] :=
  ⟨rfl, rfl⟩

/-- C8: contrary to the claim, when the cache probe misses and the loader
fails, `ServeKey` answers 200 with an empty marshalled value: the error of
`group.Get` is immediately overwritten by the (always nil) error of
`proto.Marshal`.  The 404 for an unregistered group does hold. -/
theorem claim_C8_theorem :
    serveKeyGet (some gPlain) "Tom" (.error "Tom not exist") 0 false =
      .ok { status := 200, body := [] } ∧
    serveKeyGet none "Tom" (.error "Tom not exist") 0 false =
      .ok { status := 404, body := [] } ∧
    (200 : Nat) ≠ 500 :=
  ⟨rfl, rfl, by decide⟩

/-- C3 counterexample: with persistence enabled and the persistence-layer
`Put` failing, `Group.Get` still returns the loaded value with a nil
error (and leaves the shard untouched), because `populateCache` discards
the error of `mainCache.add`; the claim demanded that the error surface. -/
theorem claim_C3_counterexample :
    groupGet gPersist "Tom" (.ok [54, 51, 48]) 0 true =
      .ok (gPersist, .ok ⟨[54, 51, 48]⟩) ∧
    (Except.ok (⟨[54, 51, 48]⟩ : ByteView) : Except String ByteView) ≠
      .error "put error" :=
  ⟨rfl, fun h => Except.noConfusion h⟩

/-- C4 counterexample: `DatabaseFile.Write` returns the offset read
*before* the bump, not the post-bump offset: writing a 22-byte record to a
fresh file returns 0 while the post-bump offset is 22. -/
theorem claim_C4_counterexample :
    (DatabaseFile.Write ⟨[], 0⟩ (NewEntry [107] [118] PUT 7)).2 = 0 ∧
    (DatabaseFile.Write ⟨[], 0⟩ (NewEntry [107] [118] PUT 7)).1.offset = 22 ∧
    (0 : Nat) ≠ 22 :=
  ⟨rfl, rfl, by decide⟩

/-- C5 counterexample: `Decode` only reads the header and leaves the
`Key`/`Value` fields at their zero value, so the decoded payloads do not
equal those of the original record. -/
theorem claim_C5_counterexample :
    (Decode ((NewEntry [107] [118] PUT 5).Encode)).map Entry.Key = some [] ∧
    (NewEntry [107] [118] PUT 5).Key = [107] ∧
    some ([] : Bytes) ≠ some [107] :=
  ⟨rfl, rfl, by decide⟩

/-! ### Association-list and replay lemmas (for C6) -/

theorem alookup_append_single {α β : Type} [DecidableEq α]
    (l : List (α × β)) (k k' : α) (v : β) :
    alookup (l ++ [(k, v)]) k' =
      match alookup l k' with
      | some w => some w
      | none => if k' = k then some v else none := by
  induction l with
  | nil => simp [alookup, eq_comm]
  | cons p rest ih =>
      by_cases h : p.1 = k' <;> simp [alookup, h, ih]

theorem alookup_map_store_eq {α β : Type} [DecidableEq α]
    (l : List (α × β)) (k : α) (v w : β)
    (hw : alookup l k = some w) :
    alookup (l.map (fun p => if p.1 = k then (k, v) else p)) k = some v := by
  induction l with
  | nil => simp [alookup] at hw
  | cons p rest ih =>
      by_cases hpk : p.1 = k
      · simp [alookup, hpk]
      · rw [alookup] at hw
        rw [if_neg hpk] at hw
        simp only [List.map_cons, if_neg hpk, alookup, hpk, if_false]
        exact ih hw

theorem alookup_map_store_ne {α β : Type} [DecidableEq α]
    (l : List (α × β)) (k k' : α) (v : β) (hk' : k' ≠ k) :
    alookup (l.map (fun p => if p.1 = k then (k, v) else p)) k' =
      alookup l k' := by
  induction l with
  | nil => simp [alookup]
  | cons p rest ih =>
      by_cases hpk : p.1 = k
      · have hne : ¬ k = k' := fun h => hk' h.symm
        simp only [List.map_cons, if_pos hpk, alookup, hne, if_false, ih]
        rw [if_neg (show ¬ p.1 = k' from hpk ▸ hne)]
      · simp only [List.map_cons, if_neg hpk, alookup]
        by_cases hpk' : p.1 = k'
        · simp [hpk']
        · simp [hpk', ih]

theorem alookup_astore {α β : Type} [DecidableEq α]
    (l : List (α × β)) (k k' : α) (v : β) :
    alookup (astore l k v) k' = if k' = k then some v else alookup l k' := by
  unfold astore
  cases hl : alookup l k with
  | none =>
      rw [alookup_append_single]
      by_cases hk' : k' = k
      · subst hk'; simp [hl]
      · simp only [if_neg hk']
        cases alookup l k' <;> simp
  | some w =>
      by_cases hk' : k' = k
      · subst hk'; rw [if_pos rfl]; exact alookup_map_store_eq l k' v w hl
      · rw [if_neg hk']; exact alookup_map_store_ne l k k' v hk'

theorem alookup_aerase {α β : Type} [DecidableEq α]
    (l : List (α × β)) (k k' : α) :
    alookup (aerase l k) k' = if k' = k then none else alookup l k' := by
  induction l with
  | nil => simp [aerase, alookup]
  | cons p rest ih =>
      simp only [aerase]
      by_cases hpk : p.1 = k
      · rw [if_pos hpk, ih]
        by_cases hk' : k' = k
        · simp [hk']
        · rw [if_neg hk', if_neg hk', alookup,
            if_neg (show ¬ p.1 = k' from hpk ▸ fun h => hk' h.symm)]
      · rw [if_neg hpk]
        by_cases hk' : k' = k
        · subst hk'
          rw [if_pos rfl, alookup, if_neg (show ¬ p.1 = k' from hpk)]
          rw [ih, if_pos rfl]
        · rw [if_neg hk', alookup, alookup]
          by_cases hpk' : p.1 = k'
          · rw [if_pos hpk', if_pos hpk']
          · rw [if_neg hpk', if_neg hpk', ih, if_neg hk']

theorem logSize_cons (e : Entry) (l : List Entry) :
    logSize (e :: l) = e.Size + logSize l := by
  simp [logSize]

theorem loadIndexGo_append (l1 l2 : List Entry) (off : Nat)
    (idx : List (Bytes × Nat)) :
    loadIndexGo (l1 ++ l2) off idx =
      loadIndexGo l2 (off + logSize l1) (loadIndexGo l1 off idx) := by
  induction l1 generalizing off idx with
  | nil => simp [loadIndexGo, logSize]
  | cons e rest ih =>
      simp only [List.cons_append, loadIndexGo, logSize_cons, List.append_eq]
      rw [ih, Nat.add_assoc]

theorem loadIndexGo_congr (l : List Entry) (off : Nat)
    (idx1 idx2 : List (Bytes × Nat))
    (h : ∀ k, alookup idx1 k = alookup idx2 k) :
    ∀ k, alookup (loadIndexGo l off idx1) k =
      alookup (loadIndexGo l off idx2) k := by
  induction l generalizing off idx1 idx2 with
  | nil => exact fun k => h k
  | cons e rest ih =>
      intro k
      simp only [loadIndexGo]
      split
      · exact ih _ _ _
          (fun k' => by rw [alookup_aerase, alookup_aerase, h k']) k
      · exact ih _ _ _
          (fun k' => by rw [alookup_astore, alookup_astore, h k']) k

/-- The replay invariant: rebuilding the index from the file agrees with
the live index at every key. -/
def ReplayInv (w : WriteSeq) : Prop :=
  ∀ k, alookup (loadIndex w.file) k = alookup w.index k

theorem replayInv_step (w : WriteSeq) (op : WOp) (h : ReplayInv w) :
    ReplayInv (wsStep w op) := by
  cases op with
  | put k0 v0 ts =>
      intro k
      simp only [wsStep, wsPut, logAppend, loadIndex] at *
      rw [loadIndexGo_append]
      simp only [loadIndexGo, NewEntry, PUT, DEL]
      rw [if_neg (by omega), alookup_astore, alookup_astore]
      split
      · simp
      · exact h k
  | del k0 ts =>
      simp only [wsStep, wsDelete]
      split
      · exact h
      · cases hl : alookup w.index k0 with
        | none => exact h
        | some off =>
            intro k
            simp only [loadIndex, logAppend] at *
            rw [loadIndexGo_append]
            simp only [loadIndexGo, NewEntry, PUT, DEL]
            rw [if_pos (by omega), alookup_aerase, alookup_aerase]
            split
            · rfl
            · exact h k

theorem replayInv_runWsFrom (w : WriteSeq) (ops : List WOp)
    (h : ReplayInv w) : ReplayInv (runWsFrom w ops) := by
  induction ops generalizing w with
  | nil => exact h
  | cons op rest ih => exact ih _ (replayInv_step w op h)

/-- C6: after any finite sequence of Put/Delete operations on a fresh
write sequence, replaying the resulting log from offset 0 (`loadIndex`)
rebuilds an index that agrees with the live in-memory index at every key:
same key set, and for each key the offset of its latest PUT record. -/
theorem claim_C6_theorem (ops : List WOp) (k : Bytes) :
    alookup (loadIndex (runWs ops).file) k = alookup (runWs ops).index k :=
  replayInv_runWsFrom wsNew ops (fun _ => rfl) k

/-! ### Encoding lemmas (for C4 and C5) -/

theorem putUint32_length (n : Nat) : (putUint32 n).length = 4 := rfl

theorem putUint64_length (n : Nat) : (putUint64 n).length = 8 := rfl

theorem copySlice_at (pre rest src : Bytes) :
    copySlice (pre ++ rest) pre.length (pre.length + src.length) src =
      pre ++ src ++ rest.drop src.length := by
  simp only [copySlice, Nat.add_sub_cancel_left, min_self, List.take_length,
    List.take_left]
  rw [← List.drop_drop, List.drop_left]

theorem copySlice_chunk (pre rest src : Bytes) (lo hi : Nat)
    (hlo : pre.length = lo) (hhi : hi = lo + src.length) :
    copySlice (pre ++ rest) lo hi src = pre ++ src ++ rest.drop src.length := by
  subst hlo; subst hhi; exact copySlice_at pre rest src

theorem newEntry_size (key value : Bytes) (mark ts : Nat)
    (hsz : key.length + value.length + HeaderSize < 2 ^ 32) :
    (NewEntry key value mark ts).Size =
      HeaderSize + key.length + value.length := by
  have hK : key.length % 2 ^ 32 = key.length := Nat.mod_eq_of_lt (by omega)
  have hV : value.length % 2 ^ 32 = value.length := Nat.mod_eq_of_lt (by omega)
  simp only [Entry.Size, NewEntry, hK, hV]
  rw [Nat.mod_eq_of_lt hsz]
  omega

/-- The encoded bytes of a `NewEntry`-built record without `uint32`
overflow: header fields back to back, then the key, then the value. -/
theorem encode_newEntry (key value : Bytes) (mark ts : Nat)
    (hsz : key.length + value.length + HeaderSize < 2 ^ 32) :
    (NewEntry key value mark ts).Encode =
      putUint32 key.length ++ putUint32 value.length ++
        putUint32 (mark % 2 ^ 32) ++ putUint64 (ts % 2 ^ 64) ++
        key ++ value := by
  have hKS : (NewEntry key value mark ts).KeySize = key.length := by
    simp only [NewEntry]; omega
  have hVS : (NewEntry key value mark ts).ValueSize = value.length := by
    simp only [NewEntry]; omega
  have hM : (NewEntry key value mark ts).Mark = mark % 2 ^ 32 := rfl
  have hT : (NewEntry key value mark ts).Timestamp = ts % 2 ^ 64 := rfl
  have hKey : (NewEntry key value mark ts).Key = key := rfl
  have hVal : (NewEntry key value mark ts).Value = value := rfl
  have hS := newEntry_size key value mark ts hsz
  simp only [Entry.Encode, hKS, hVS, hM, hT, hKey, hVal, hS, HeaderSize]
  have e1 : copySlice (List.replicate (20 + key.length + value.length) 0)
      0 4 (putUint32 key.length) =
      putUint32 key.length ++
        List.replicate (16 + key.length + value.length) 0 := by
    have h := copySlice_chunk []
      (List.replicate (20 + key.length + value.length) 0)
      (putUint32 key.length) 0 4 rfl rfl
    simpa [List.drop_replicate, putUint32_length,
      show 20 + key.length + value.length - 4 =
        16 + key.length + value.length by omega] using h
  rw [e1]
  have e2 : copySlice (putUint32 key.length ++
      List.replicate (16 + key.length + value.length) 0)
      4 8 (putUint32 value.length) =
      putUint32 key.length ++ (putUint32 value.length ++
        List.replicate (12 + key.length + value.length) 0) := by
    have h := copySlice_chunk (putUint32 key.length)
      (List.replicate (16 + key.length + value.length) 0)
      (putUint32 value.length) 4 8 (putUint32_length _) rfl
    simpa [List.drop_replicate, putUint32_length, List.append_assoc,
      show 16 + key.length + value.length - 4 =
        12 + key.length + value.length by omega] using h
  rw [e2]
  have e3 : copySlice (putUint32 key.length ++ (putUint32 value.length ++
      List.replicate (12 + key.length + value.length) 0))
      8 12 (putUint32 (mark % 2 ^ 32)) =
      putUint32 key.length ++ (putUint32 value.length ++
        (putUint32 (mark % 2 ^ 32) ++
          List.replicate (8 + key.length + value.length) 0)) := by
    rw [← List.append_assoc]
    have h := copySlice_chunk (putUint32 key.length ++ putUint32 value.length)
      (List.replicate (12 + key.length + value.length) 0)
      (putUint32 (mark % 2 ^ 32)) 8 12
      (by simp [putUint32_length]) rfl
    simpa [List.drop_replicate, putUint32_length, List.append_assoc,
      show 12 + key.length + value.length - 4 =
        8 + key.length + value.length by omega] using h
  rw [e3]
  have e4 : copySlice (putUint32 key.length ++ (putUint32 value.length ++
      (putUint32 (mark % 2 ^ 32) ++
        List.replicate (8 + key.length + value.length) 0)))
      12 20 (putUint64 (ts % 2 ^ 64)) =
      putUint32 key.length ++ (putUint32 value.length ++
        (putUint32 (mark % 2 ^ 32) ++ (putUint64 (ts % 2 ^ 64) ++
          List.replicate (key.length + value.length) 0))) := by
    rw [← List.append_assoc, ← List.append_assoc]
    have h := copySlice_chunk
      (putUint32 key.length ++ putUint32 value.length ++
        putUint32 (mark % 2 ^ 32))
      (List.replicate (8 + key.length + value.length) 0)
      (putUint64 (ts % 2 ^ 64)) 12 20
      (by simp [putUint32_length]) rfl
    simpa [List.drop_replicate, putUint64_length, List.append_assoc,
      show 8 + key.length + value.length - 8 =
        key.length + value.length by omega] using h
  rw [e4]
  have e5 : copySlice (putUint32 key.length ++ (putUint32 value.length ++
      (putUint32 (mark % 2 ^ 32) ++ (putUint64 (ts % 2 ^ 64) ++
        List.replicate (key.length + value.length) 0))))
      20 (20 + key.length) key =
      putUint32 key.length ++ (putUint32 value.length ++
        (putUint32 (mark % 2 ^ 32) ++ (putUint64 (ts % 2 ^ 64) ++
          (key ++ List.replicate value.length 0)))) := by
    rw [← List.append_assoc, ← List.append_assoc, ← List.append_assoc]
    have h := copySlice_chunk
      (putUint32 key.length ++ putUint32 value.length ++
        putUint32 (mark % 2 ^ 32) ++ putUint64 (ts % 2 ^ 64))
      (List.replicate (key.length + value.length) 0)
      key 20 (20 + key.length)
      (by simp [putUint32_length, putUint64_length]) rfl
    simpa [List.drop_replicate, List.append_assoc,
      Nat.add_sub_cancel_left] using h
  rw [e5]
  have e6 : copySlice (putUint32 key.length ++ (putUint32 value.length ++
      (putUint32 (mark % 2 ^ 32) ++ (putUint64 (ts % 2 ^ 64) ++
        (key ++ List.replicate value.length 0)))))
      (20 + key.length) (20 + key.length + value.length) value =
      putUint32 key.length ++ (putUint32 value.length ++
        (putUint32 (mark % 2 ^ 32) ++ (putUint64 (ts % 2 ^ 64) ++
          (key ++ value)))) := by
    rw [← List.append_assoc, ← List.append_assoc, ← List.append_assoc,
      ← List.append_assoc]
    have h := copySlice_chunk
      (putUint32 key.length ++ putUint32 value.length ++
        putUint32 (mark % 2 ^ 32) ++ putUint64 (ts % 2 ^ 64) ++ key)
      (List.replicate value.length 0)
      value (20 + key.length) (20 + key.length + value.length)
      (by simp [putUint32_length, putUint64_length]; omega)
      rfl
    simpa [List.drop_replicate, List.append_assoc] using h
  rw [e6]
  simp [List.append_assoc]

theorem encode_newEntry_length (key value : Bytes) (mark ts : Nat)
    (hsz : key.length + value.length + HeaderSize < 2 ^ 32) :
    (NewEntry key value mark ts).Encode.length =
      (NewEntry key value mark ts).Size := by
  rw [encode_newEntry key value mark ts hsz, newEntry_size key value mark ts hsz]
  simp [putUint32, putUint64, HeaderSize]
  omega

theorem writeAt_append (content data : Bytes) :
    writeAt content content.length data = content ++ data := by
  unfold writeAt
  simp [List.take_left, List.drop_eq_nil_of_le, Nat.le_add_right]

/-- `Decode` on an explicit 20-byte header followed by any tail. -/
theorem decode_header (a1 a2 a3 a4 b1 b2 b3 b4 c1 c2 c3 c4 : Nat)
    (d1 d2 d3 d4 d5 d6 d7 d8 : Nat) (rest : Bytes) :
    Decode (a1 :: a2 :: a3 :: a4 :: b1 :: b2 :: b3 :: b4 ::
        c1 :: c2 :: c3 :: c4 ::
        d1 :: d2 :: d3 :: d4 :: d5 :: d6 :: d7 :: d8 :: rest) =
      some { Key := [], Value := [],
             KeySize := ((a1 * 256 + a2) * 256 + a3) * 256 + a4,
             ValueSize := ((b1 * 256 + b2) * 256 + b3) * 256 + b4,
             Mark := ((c1 * 256 + c2) * 256 + c3) * 256 + c4,
             Timestamp :=
               ((((((d1 * 256 + d2) * 256 + d3) * 256 + d4) * 256 + d5)
                 * 256 + d6) * 256 + d7) * 256 + d8 } := by
  simp only [Decode, HeaderSize]
  rw [if_neg (by simp)]
  rfl

/-- C4 (amended): `DatabaseFile.Write` writes the record at the file's
current offset (appending it when the offset equals the file length, as
holds in every reachable file state), advances the offset by the record's
encoded size, and returns the *pre-bump* offset — the offset at which the
record starts, which `WriteSequence.Put` then stores in the index. -/
theorem claim_C4_theorem (f : DatabaseFile) (key value : Bytes)
    (mark ts : Nat)
    (hoff : f.offset = f.content.length)
    (hsz : key.length + value.length + HeaderSize < 2 ^ 32) :
    (f.Write (NewEntry key value mark ts)).2 = f.offset ∧
    (f.Write (NewEntry key value mark ts)).1.offset =
      f.offset + (NewEntry key value mark ts).Size ∧
    (f.Write (NewEntry key value mark ts)).1.content =
      f.content ++ (NewEntry key value mark ts).Encode ∧
    (NewEntry key value mark ts).Encode.length =
      (NewEntry key value mark ts).Size := by
  refine ⟨rfl, rfl, ?_, encode_newEntry_length key value mark ts hsz⟩
  simp only [DatabaseFile.Write, hoff]
  exact writeAt_append f.content _

/-- C4 witness: the amended statement at a concrete file and record. -/
theorem claim_C4_witness :
    ((⟨[1, 2], 2⟩ : DatabaseFile).offset = [1, 2].length ∧
      (1 : Nat) + 1 + HeaderSize < 2 ^ 32) ∧
    ((⟨[1, 2], 2⟩ : DatabaseFile).Write (NewEntry [107] [118] PUT 7)).2 = 2 ∧
    ((⟨[1, 2], 2⟩ : DatabaseFile).Write (NewEntry [107] [118] PUT 7)).1.offset =
      2 + (NewEntry [107] [118] PUT 7).Size := by
  have h := claim_C4_theorem ⟨[1, 2], 2⟩ [107] [118] PUT 7 (by decide)
    (by decide)
  exact ⟨⟨by decide, by decide⟩, h.1, h.2.1⟩

/-- C5 (amended): decoding the bytes produced by `Encode` preserves all
stored header fields (`key_size`, `value_size`, `mark`, `timestamp`, hence
the total size), but `Decode` leaves the key and value payloads empty: the
payloads are not decoded — they sit in the encoded bytes at offsets
`HeaderSize` and `HeaderSize + key_size`, where they equal the original
ones and are read separately. -/
theorem claim_C5_theorem (key value : Bytes) (mark ts : Nat)
    (hsz : key.length + value.length + HeaderSize < 2 ^ 32) :
    Decode ((NewEntry key value mark ts).Encode) =
      some { Key := [], Value := [],
             KeySize := (NewEntry key value mark ts).KeySize,
             ValueSize := (NewEntry key value mark ts).ValueSize,
             Mark := (NewEntry key value mark ts).Mark,
             Timestamp := (NewEntry key value mark ts).Timestamp } ∧
    ((NewEntry key value mark ts).Encode.drop HeaderSize).take key.length =
      key ∧
    (NewEntry key value mark ts).Encode.drop (HeaderSize + key.length) =
      value := by
  rw [encode_newEntry key value mark ts hsz]
  have hsz' : key.length + value.length + 20 < 2 ^ 32 := by
    simpa [HeaderSize] using hsz
  refine ⟨?_, ?_, ?_⟩
  · simp only [putUint32, putUint64, List.cons_append, List.nil_append]
    rw [decode_header]
    simp only [NewEntry, Option.some.injEq, Entry.mk.injEq, true_and]
    refine ⟨by omega, by omega, by omega, by omega⟩
  · have hdrop : (putUint32 key.length ++ putUint32 value.length ++
        putUint32 (mark % 2 ^ 32) ++ putUint64 (ts % 2 ^ 64) ++
        key ++ value).drop HeaderSize = key ++ value := by
      simp only [putUint32, putUint64, List.cons_append, List.nil_append,
        HeaderSize]
      rfl
    rw [hdrop]
    exact List.take_left key value
  · have hdrop : ∀ m, (putUint32 key.length ++ putUint32 value.length ++
        putUint32 (mark % 2 ^ 32) ++ putUint64 (ts % 2 ^ 64) ++
        key ++ value).drop (HeaderSize + m) = (key ++ value).drop m := by
      intro m
      simp only [putUint32, putUint64, List.cons_append, List.nil_append,
        HeaderSize]
      rw [← List.drop_drop m 20]
      exact congrArg (List.drop m) rfl
    rw [hdrop key.length]
    exact List.drop_left key value

/-- C5 witness: the amended statement at a concrete record. -/
theorem claim_C5_witness :
    ((1 : Nat) + 2 + HeaderSize < 2 ^ 32) ∧
    Decode ((NewEntry [107] [118, 119] 1 3).Encode) =
      some { Key := [], Value := [],
             KeySize := (NewEntry [107] [118, 119] 1 3).KeySize,
             ValueSize := (NewEntry [107] [118, 119] 1 3).ValueSize,
             Mark := (NewEntry [107] [118, 119] 1 3).Mark,
             Timestamp := (NewEntry [107] [118, 119] 1 3).Timestamp } ∧
    ((NewEntry [107] [118, 119] 1 3).Encode.drop HeaderSize).take 1 =
      [107] ∧
    (NewEntry [107] [118, 119] 1 3).Encode.drop (HeaderSize + 1) =
      [118, 119] := by
  have h := claim_C5_theorem [107] [118, 119] 1 3 (by decide)
  exact ⟨by decide, h.1, h.2.1, h.2.2⟩

/-- C3 (amended): when the cache probe misses, the loader succeeds and the
shard's add fails (persistence-layer `Put` error), `Group.Get` returns the
loaded value with a nil error — `populateCache` discards `mainCache.add`'s
error — and the shard is left unmodified (the LRU was not updated). -/
theorem claim_C3_theorem (g : Group) (key : String) (bs : Bytes) (ts : Nat)
    (hk : key.length ≠ 0)
    (hmiss : alookup g.mainCache.data.cache key = none)
    (hpers : g.mainCache.enablePersistence = true)
    (hws : ∃ w, g.mainCache.writeSequence = some w) :
    groupGet g key (.ok bs) ts true = .ok (g, .ok ⟨bs⟩) := by
  obtain ⟨w, hw⟩ := hws
  simp only [groupGet, cacheGet, lruGet, hmiss, groupLoad, getLocally,
    cacheAdd, hw, hpers, hk, if_neg, if_false, ite_false, ite_true,
    if_true]
  rw [← hpers, ← hw]

/-- C3 witness: the amended statement at a concrete group and key. -/
theorem claim_C3_witness :
    ("Tom".length ≠ 0 ∧
      alookup gPersist.mainCache.data.cache "Tom" = none ∧
      gPersist.mainCache.enablePersistence = true ∧
      gPersist.mainCache.writeSequence = some wsNew) ∧
    groupGet gPersist "Tom" (.ok [54, 51, 48]) 0 true =
      .ok (gPersist, .ok ⟨[54, 51, 48]⟩) :=
  ⟨⟨by decide, rfl, rfl, rfl⟩,
    claim_C3_theorem gPersist "Tom" [54, 51, 48] 0 (by decide) rfl rfl
      ⟨wsNew, rfl⟩⟩

/-- C10: a group built with `EnablePersistence = true` but an empty
`PersistencePath` has a nil write sequence while its persistence flag is
set; `add` (and hence `Get`) silently skips persistence because it checks
the write sequence for nil — even when the log layer would have failed —
but `Group.Delete` of any (nonempty) key calls `Delete` on the nil write
sequence, which dereferences it and panics instead of returning an
error. -/
theorem claim_C10_theorem (name : String) (lpf : Bool) (incr : String)
    (key : String) (ts : Nat) (bs : Bytes) (hk : key.length ≠ 0) :
    ∃ g, newGroup ⟨name, true, "", lpf, "", incr⟩ 0 = .ok g ∧
      g.mainCache.writeSequence = none ∧
      g.mainCache.enablePersistence = true ∧
      (∃ c', cacheAdd g.mainCache key ⟨bs⟩ ts true = .ok (c', none) ∧
        c'.writeSequence = none) ∧
      groupDelete g key ts false = .panicked := by
  refine ⟨⟨name, ⟨lruNew 0, true, none⟩⟩, ?_, rfl, rfl, ?_, ?_⟩
  · simp [newGroup]
  · refine ⟨⟨{ maxBytes := 0,
               nbytes := 0 + ((key.length : Int) + (ByteView.mk bs).Len),
               ll := [⟨0, .ent key ⟨bs⟩⟩], cache := [(key, 0)],
               nextId := 1 }, true, none⟩, ?_, rfl⟩
    simp [cacheAdd, hk, lruAdd, lruNew, alookup, evictN, Outcome.map]
  · simp [groupDelete, cacheDelete, hk]

/-- C10 witness: the statement at a concrete configuration and key. -/
theorem claim_C10_witness :
    ("Tom".length ≠ 0) ∧
    (∃ g, newGroup ⟨"scores", true, "", false, "", ""⟩ 0 = .ok g ∧
      g.mainCache.writeSequence = none ∧
      g.mainCache.enablePersistence = true ∧
      (∃ c', cacheAdd g.mainCache "Tom" ⟨[49]⟩ 0 true = .ok (c', none) ∧
        c'.writeSequence = none) ∧
      groupDelete g "Tom" 0 false = .panicked) :=
  ⟨by decide, claim_C10_theorem "scores" false "" "Tom" 0 [49] (by decide)⟩

/-! ### Single-flight invariant proofs (for C7) -/

theorem sfInv_init (α : Type) : SFInv (sfInit α) := by
  constructor
  · intro cid _
    refine ⟨rfl, rfl, by simp [sfInit], fun i => ?_⟩
    simp [sfInit, sfUses]
  · intro cid; exact Nat.zero_le 1
  · intro i cid h; cases h
  · intro i j cid hi hj; cases hi
  · intro i cid r h; cases h

theorem sfInv_step {α : Type} {s s' : SFState α} (h : SFInv s)
    (hs : SFStep s s') : SFInv s' := by
  cases hs with
  | enterNew i h1 h2 =>
      constructor
      · intro cid hcid
        have hcid' : s.nextId + 1 ≤ cid := hcid
        have hold := h.fresh cid (by omega)
        refine ⟨hold.1, hold.2.1, fun hh => ?_, fun j => ?_⟩
        · injection hh with hh'
          omega
        · by_cases hji : j = i
          · subst hji
            simp only [Function.update_same, sfUses]
            omega
          · simp only [Function.update_noteq hji]
            exact hold.2.2.2 j
      · intro cid; exact h.cnt_le cid
      · intro j cid hj
        by_cases hji : j = i
        · subst hji
          simp only [Function.update_same] at hj
          injection hj with hj'
          subst hj'
          exact ⟨(h.fresh s.nextId le_rfl).1, (h.fresh s.nextId le_rfl).2.1⟩
        · simp only [Function.update_noteq hji] at hj
          exact h.exec_run j cid hj
      · intro j k cid hj hk
        by_cases hji : j = i
        · by_cases hki : k = i
          · rw [hji, hki]
          · subst hji
            simp only [Function.update_same] at hj
            injection hj with hj'
            simp only [Function.update_noteq hki] at hk
            have huse : sfUses (s.threads k) s.nextId := by
              rw [hk, ← hj']
              exact rfl
            exact absurd huse ((h.fresh s.nextId le_rfl).2.2.2 k)
        · by_cases hki : k = i
          · subst hki
            simp only [Function.update_same] at hk
            injection hk with hk'
            simp only [Function.update_noteq hji] at hj
            have huse : sfUses (s.threads j) s.nextId := by
              rw [hj, ← hk']
              exact rfl
            exact absurd huse ((h.fresh s.nextId le_rfl).2.2.2 j)
          · simp only [Function.update_noteq hji] at hj
            simp only [Function.update_noteq hki] at hk
            exact h.exec_uniq j k cid hj hk
      · intro j cid r hj
        by_cases hji : j = i
        · subst hji
          simp only [Function.update_same] at hj
          exact ThreadPC.noConfusion hj
        · simp only [Function.update_noteq hji] at hj
          exact h.ret_done j cid r hj
  | enterJoin i cid h1 h2 =>
      have hlt : cid < s.nextId := by
        by_contra hc
        exact (h.fresh cid (by omega)).2.2.1 h2
      constructor
      · intro cid' hcid
        have hcid' : s.nextId ≤ cid' := hcid
        have hold := h.fresh cid' hcid'
        refine ⟨hold.1, hold.2.1, hold.2.2.1, fun j => ?_⟩
        by_cases hji : j = i
        · subst hji
          simp only [Function.update_same, sfUses]
          omega
        · simp only [Function.update_noteq hji]
          exact hold.2.2.2 j
      · intro cid'; exact h.cnt_le cid'
      · intro j cid' hj
        by_cases hji : j = i
        · subst hji
          simp only [Function.update_same] at hj
          exact ThreadPC.noConfusion hj
        · simp only [Function.update_noteq hji] at hj
          exact h.exec_run j cid' hj
      · intro j k cid' hj hk
        by_cases hji : j = i
        · subst hji
          simp only [Function.update_same] at hj
          exact ThreadPC.noConfusion hj
        · by_cases hki : k = i
          · subst hki
            simp only [Function.update_same] at hk
            exact ThreadPC.noConfusion hk
          · simp only [Function.update_noteq hji] at hj
            simp only [Function.update_noteq hki] at hk
            exact h.exec_uniq j k cid' hj hk
      · intro j cid' r hj
        by_cases hji : j = i
        · subst hji
          simp only [Function.update_same] at hj
          exact ThreadPC.noConfusion hj
        · simp only [Function.update_noteq hji] at hj
          exact h.ret_done j cid' r hj
  | runFn i cid r h1 =>
      have hrun := h.exec_run i cid h1
      have hlt : cid < s.nextId := by
        by_contra hc
        have huse : sfUses (s.threads i) cid := by
          rw [h1]
          exact rfl
        exact (h.fresh cid (by omega)).2.2.2 i huse
      constructor
      · intro cid' hcid
        have hcid' : s.nextId ≤ cid' := hcid
        have hold := h.fresh cid' hcid'
        have hne : cid ≠ cid' := by omega
        refine ⟨?_, ?_, hold.2.2.1, fun j => ?_⟩
        · simp only [Function.update_noteq (Ne.symm hne)]
          exact hold.1
        · simp only [Function.update_noteq (Ne.symm hne)]
          exact hold.2.1
        · by_cases hji : j = i
          · subst hji
            simp only [Function.update_same, sfUses]
            omega
          · simp only [Function.update_noteq hji]
            exact hold.2.2.2 j
      · intro cid'
        by_cases hc : cid' = cid
        · subst hc
          simp only [Function.update_same]
          omega
        · simp only [Function.update_noteq hc]
          exact h.cnt_le cid'
      · intro j cid' hj
        by_cases hji : j = i
        · subst hji
          simp only [Function.update_same] at hj
          exact ThreadPC.noConfusion hj
        · simp only [Function.update_noteq hji] at hj
          have hold := h.exec_run j cid' hj
          have hne : cid' ≠ cid := by
            intro hc
            exact hji (h.exec_uniq j i cid (hc ▸ hj) h1)
          constructor
          · simp only [Function.update_noteq hne]
            exact hold.1
          · simp only [Function.update_noteq hne]
            exact hold.2
      · intro j k cid' hj hk
        by_cases hji : j = i
        · subst hji
          simp only [Function.update_same] at hj
          exact ThreadPC.noConfusion hj
        · by_cases hki : k = i
          · subst hki
            simp only [Function.update_same] at hk
            exact ThreadPC.noConfusion hk
          · simp only [Function.update_noteq hji] at hj
            simp only [Function.update_noteq hki] at hk
            exact h.exec_uniq j k cid' hj hk
      · intro j cid' r' hj
        by_cases hji : j = i
        · subst hji
          simp only [Function.update_same] at hj
          exact ThreadPC.noConfusion hj
        · simp only [Function.update_noteq hji] at hj
          have hold := h.ret_done j cid' r' hj
          by_cases hc : cid' = cid
          · subst hc
            rw [hrun.2] at hold
            exact CallState.noConfusion hold
          · simp only [Function.update_noteq hc]
            exact hold
  | removeEntry i cid r h1 h2 =>
      have hlt : cid < s.nextId := by
        by_contra hc
        have huse : sfUses (s.threads i) cid := by
          rw [h1]
          exact rfl
        exact (h.fresh cid (by omega)).2.2.2 i huse
      constructor
      · intro cid' hcid
        have hcid' : s.nextId ≤ cid' := hcid
        have hold := h.fresh cid' hcid'
        refine ⟨hold.1, hold.2.1, fun hh => Option.noConfusion hh,
          fun j => ?_⟩
        by_cases hji : j = i
        · subst hji
          simp only [Function.update_same, sfUses]
          omega
        · simp only [Function.update_noteq hji]
          exact hold.2.2.2 j
      · intro cid'; exact h.cnt_le cid'
      · intro j cid' hj
        by_cases hji : j = i
        · subst hji
          simp only [Function.update_same] at hj
          exact ThreadPC.noConfusion hj
        · simp only [Function.update_noteq hji] at hj
          exact h.exec_run j cid' hj
      · intro j k cid' hj hk
        by_cases hji : j = i
        · subst hji
          simp only [Function.update_same] at hj
          exact ThreadPC.noConfusion hj
        · by_cases hki : k = i
          · subst hki
            simp only [Function.update_same] at hk
            exact ThreadPC.noConfusion hk
          · simp only [Function.update_noteq hji] at hj
            simp only [Function.update_noteq hki] at hk
            exact h.exec_uniq j k cid' hj hk
      · intro j cid' r' hj
        by_cases hji : j = i
        · subst hji
          simp only [Function.update_same] at hj
          injection hj with hc hr
          subst hc
          subst hr
          exact h2
        · simp only [Function.update_noteq hji] at hj
          exact h.ret_done j cid' r' hj
  | finishWait i cid r h1 h2 =>
      have hlt : cid < s.nextId := by
        by_contra hc
        have huse : sfUses (s.threads i) cid := by
          rw [h1]
          exact rfl
        exact (h.fresh cid (by omega)).2.2.2 i huse
      constructor
      · intro cid' hcid
        have hcid' : s.nextId ≤ cid' := hcid
        have hold := h.fresh cid' hcid'
        refine ⟨hold.1, hold.2.1, hold.2.2.1, fun j => ?_⟩
        by_cases hji : j = i
        · subst hji
          simp only [Function.update_same, sfUses]
          omega
        · simp only [Function.update_noteq hji]
          exact hold.2.2.2 j
      · intro cid'; exact h.cnt_le cid'
      · intro j cid' hj
        by_cases hji : j = i
        · subst hji
          simp only [Function.update_same] at hj
          exact ThreadPC.noConfusion hj
        · simp only [Function.update_noteq hji] at hj
          exact h.exec_run j cid' hj
      · intro j k cid' hj hk
        by_cases hji : j = i
        · subst hji
          simp only [Function.update_same] at hj
          exact ThreadPC.noConfusion hj
        · by_cases hki : k = i
          · subst hki
            simp only [Function.update_same] at hk
            exact ThreadPC.noConfusion hk
          · simp only [Function.update_noteq hji] at hj
            simp only [Function.update_noteq hki] at hk
            exact h.exec_uniq j k cid' hj hk
      · intro j cid' r' hj
        by_cases hji : j = i
        · subst hji
          simp only [Function.update_same] at hj
          injection hj with hc hr
          subst hc
          subst hr
          exact h2
        · simp only [Function.update_noteq hji] at hj
          exact h.ret_done j cid' r' hj

theorem sfInv_reachable {α : Type} (s : SFState α) (h : SFReachable s) :
    SFInv s := by
  unfold SFReachable at h
  induction h with
  | refl => exact sfInv_init α
  | tail _ hbc ih => exact sfInv_step ih hbc

/-- C7: in the single-flight model of `GroupCall.Do` on one key, every
reachable interleaving of `Do` calls invokes `fn` at most once per
generation (call record, living from map insertion to removal), and any
two calls that returned from the same generation carry the same
`(value, error)` result. -/
theorem claim_C7_theorem {α : Type} (s : SFState α) (h : SFReachable s) :
    (∀ cid, s.fnCnt cid ≤ 1) ∧
    (∀ i j cid r r', s.threads i = .ret cid r → s.threads j = .ret cid r' →
      r = r') := by
  have inv := sfInv_reachable s h
  refine ⟨inv.cnt_le, fun i j cid r r' hi hj => ?_⟩
  have d1 := inv.ret_done i cid r hi
  have d2 := inv.ret_done j cid r' hj
  rw [d1] at d2
  injection d2 with hrr

/-- C7 witness: a five-step interleaving in which goroutine 0 originates
call 0, goroutine 1 joins it, `fn` runs once returning 42, and both
goroutines return; the theorem applies to the resulting reachable
state. -/
theorem claim_C7_witness :
    ∃ s : SFState Nat, SFReachable s ∧
      (∀ cid, s.fnCnt cid ≤ 1) ∧
      (∀ i j cid r r', s.threads i = .ret cid r →
        s.threads j = .ret cid r' → r = r') := by
  have h1 : SFStep (sfInit Nat) sfS1 := SFStep.enterNew (sfInit Nat) 0 rfl rfl
  have h2 : SFStep sfS1 sfS2 := SFStep.enterJoin sfS1 1 0 rfl rfl
  have h3 : SFStep sfS2 sfS3 := SFStep.runFn sfS2 0 0 42 rfl
  have h4 : SFStep sfS3 sfS4 := SFStep.finishWait sfS3 1 0 42 rfl rfl
  have h5 : SFStep sfS4 sfS5 := SFStep.removeEntry sfS4 0 0 42 rfl rfl
  have hr : SFReachable sfS5 :=
    Relation.ReflTransGen.tail
      (Relation.ReflTransGen.tail
        (Relation.ReflTransGen.tail
          (Relation.ReflTransGen.tail (Relation.ReflTransGen.single h1) h2)
          h3)
        h4)
      h5
  exact ⟨sfS5, hr, claim_C7_theorem sfS5 hr⟩

end MyCache
